import Mathlib

/-!
A shallow embedding of `src/newick.py` (python-newick): the `Node` tree type,
its serializer `newick`, the recursive-descent parser `parse_node` with its
helpers `_parse_siblings` and `_parse_name_and_length`, the document helpers
`loads` and `dumps`, and the two traversals `walk` (pre-order) and
`_postorder` (iterative, identity-keyed).

Python strings are modelled as `List Char`, optional strings as
`Option (List Char)`, and the `ValueError`s the module raises as an explicit
error type carried in `Except`.  All definitions are executable.
-/

/-- `RESERVED_PUNCTUATION = ':;,()'` from `newick.py`. -/
def RESERVED_PUNCTUATION : List Char := [':', ';', ',', '(', ')']

/-- ASCII whitespace, as stripped by Python `str.strip()` (unicode-only
whitespace code points are not modelled). -/
def pySpace (c : Char) : Bool :=
  c = ' ' || c = '\t' || c = '\n' || c = '\r' || c = '\x0b' || c = '\x0c'

/-- Python `s.strip()`. -/
def pyStrip (s : List Char) : List Char :=
  ((s.dropWhile pySpace).reverse.dropWhile pySpace).reverse

/-- Python `s.split(sep)` for a one-character separator: split at every
occurrence; the empty string yields `[""]`. -/
def pySplit (sep : Char) : List Char → List (List Char)
  | [] => [[]]
  | c :: cs =>
    if c = sep then [] :: pySplit sep cs
    else
      match pySplit sep cs with
      | [] => [[c]]
      | p :: ps => (c :: p) :: ps

/-- Python `sep.join(parts)` for a one-character separator. -/
def joinSep (sep : Char) : List (List Char) → List Char
  | [] => []
  | [x] => x
  | x :: xs => x ++ sep :: joinSep sep xs

/-- Python `sep.join(parts)` for a multi-character separator. -/
def joinStr (sep : List Char) : List (List Char) → List Char
  | [] => []
  | [x] => x
  | x :: xs => x ++ sep ++ joinStr sep xs

/-- Python `s or None` on a string: the empty string becomes `None`. -/
def listOrNone (l : List Char) : Option (List Char) :=
  if l.isEmpty then none else some l

/-- Python truthiness of an optional string (`None` and `""` are falsy). -/
def truthy : Option (List Char) → Bool
  | none => false
  | some l => !l.isEmpty

/-- The two kinds of `ValueError` raised by `newick.py`: the constructor's
`'Node names or branch lengths must not contain "%s"'` (the spec's
`InvalidLabelError`, carrying the offending character) and the parser's
`'unmatched braces %s'` (the spec's `SyntaxError`, carrying the offending
text excerpt). -/
inductive NewickError where
  | invalidLabel (c : Char)
  | unmatchedBraces (excerpt : List Char)
deriving DecidableEq, Repr

/-- `newick.Node`: optional name, optional branch length (kept as raw text)
and the ordered list of children. -/
inductive Node where
  | mk (name : Option (List Char)) (length : Option (List Char))
      (descendants : List Node)

def Node.name : Node → Option (List Char)
  | .mk n _ _ => n

def Node.length : Node → Option (List Char)
  | .mk _ l _ => l

def Node.descendants : Node → List Node
  | .mk _ _ ds => ds

/-- `Node.__init__`: scan `':;,()'` in order and raise on the first character
for which `(name and char in name) or (length and char in length)` holds;
otherwise store the fields as given (`descendants or []` is the list itself
in this model). -/
def Node.create (name length : Option (List Char)) (descendants : List Node) :
    Except NewickError Node :=
  match RESERVED_PUNCTUATION.find? (fun c =>
      (truthy name && (name.getD []).contains c) ||
      (truthy length && (length.getD []).contains c)) with
  | some c => .error (.invalidLabel c)
  | none => .ok (.mk name length descendants)

/-- The node's own label in `Node.newick`: `self.name or ''`, extended with
`':' + self.length` when the length is truthy. -/
def labelOf (name length : Option (List Char)) : List Char :=
  name.getD [] ++ (if truthy length then ':' :: (length.getD []) else [])

mutual
/-- `Node.newick`: serialize the children, join with `','`, wrap the joined
text in parentheses when it is non-empty, and append the label. -/
def Node.newick : Node → List Char
  | .mk name length descendants =>
    let ds := joinSep ',' (newickList descendants)
    (if ds.isEmpty then [] else '(' :: (ds ++ [')'])) ++ labelOf name length

/-- The list comprehension `[n.newick for n in descendants]`. -/
def newickList : List Node → List (List Char)
  | [] => []
  | d :: ds => Node.newick d :: newickList ds
end

/-- `Node.is_leaf`: `not bool(self.descendants)`. -/
def Node.is_leaf (n : Node) : Bool := n.descendants.isEmpty

/-- `_parse_name_and_length`: split the label at the first `':'` when one is
present; empty pieces become `None`. -/
def parseNameAndLength (s : List Char) : Option (List Char) × Option (List Char) :=
  if s.contains ':' then
    (listOrNone (s.takeWhile (fun c => c ≠ ':')),
     listOrNone ((s.dropWhile (fun c => c ≠ ':')).tail))
  else (listOrNone s, none)

/-- The scanning loop of `_parse_siblings`, already given the sentinel-extended
text: a `','` at bracket level 0 emits the current chunk; any other character
updates the level and is appended to the current chunk.  Whatever remains in
`current` when the input ends is discarded, exactly as in the source. -/
def sibGo : List Char → Int → List Char → List (List Char)
  | [], _, _ => []
  | c :: cs, level, current =>
    if c = ',' && level == 0 then current :: sibGo cs level []
    else
      sibGo cs (if c = '(' then level + 1 else if c = ')' then level - 1 else level)
        (current ++ [c])

/-- The chunking performed by `_parse_siblings`: scan `s + ","` splitting at
zero-level commas. -/
def siblingChunks (s : List Char) : List (List Char) := sibGo (s ++ [',']) 0 []

/-- Forcing a sequence of fallible parses in order, stopping at the first
raised error (how Python evaluates `list(...)` over the generator, and the
list comprehension in `loads`). -/
def exceptMapM (f : List Char → Except NewickError Node) :
    List (List Char) → Except NewickError (List Node)
  | [] => .ok []
  | c :: cs => do
    let n ← f c
    let ns ← exceptMapM f cs
    .ok (n :: ns)

/-- `parse_node`, with explicit recursion fuel (the source recurses on strictly
shorter substrings, so `parse_node` below always supplies enough fuel):
strip, split on `')'`; a single part is a leaf label; otherwise the text must
begin with `'('` (else `'unmatched braces'` with a 100-character excerpt), the
descendants text between the leading `'('` and the last `')'` is chunked at
zero-level commas and parsed recursively, and the final part is the label. -/
def parseNodeF : Nat → List Char → Except NewickError Node
  | 0, _ => .error (.unmatchedBraces [])
  | fuel + 1, s =>
    let t := pyStrip s
    let parts := pySplit ')' t
    if parts.length == 1 then
      let nl := parseNameAndLength t
      Node.create nl.1 nl.2 []
    else if (parts.headD []).head? == some '(' then
      (do
        let ds ← exceptMapM (parseNodeF fuel)
          (siblingChunks ((joinSep ')' parts.dropLast).drop 1))
        let nl := parseNameAndLength (parts.getLastD [])
        Node.create nl.1 nl.2 ds)
    else
      .error (.unmatchedBraces ((parts.headD []).take 100))

/-- `parse_node(s)`. -/
def parse_node (s : List Char) : Except NewickError Node :=
  parseNodeF (s.length + 1) s

/-- `loads`: split the document on `';'`, keep the segments that are non-blank
after stripping, and parse each with `parse_node`. -/
def loads (s : List Char) : Except NewickError (List Node) :=
  exceptMapM (fun ss => parse_node (pyStrip ss))
    ((pySplit ';' s).filter (fun ss => !(pyStrip ss).isEmpty))

/-- `dumps` on a list of trees: join the serializations with `";\n"` and
append the final `';'`. -/
def dumps (trees : List Node) : List Char :=
  joinStr [';', '\n'] (newickList trees) ++ [';']

/-- A runtime tree node as the traversal code observes it: the `Node` payload
plus the Python object identity `id(node)`, modelled as a `Nat` tag. -/
inductive DNode where
  | mk (nid : Nat) (name : Option (List Char)) (length : Option (List Char))
      (descendants : List DNode)

def DNode.nid : DNode → Nat
  | .mk i _ _ _ => i

def DNode.descendants : DNode → List DNode
  | .mk _ _ _ ds => ds

def DNode.name : DNode → Option (List Char)
  | .mk _ n _ _ => n

mutual
/-- `Node.walk()` in the default mode: yield the node itself, then each
child's own walk, in child order. -/
def DNode.walk : DNode → List DNode
  | .mk i n l ds => .mk i n l ds :: walkList ds

/-- The concatenation of the walks of a list of nodes. -/
def walkList : List DNode → List DNode
  | [] => []
  | d :: ds => DNode.walk d ++ walkList ds
end

mutual
/-- Forget the identity decoration. -/
def derase : DNode → Node
  | .mk _ n l ds => .mk n l (deraseList ds)

def deraseList : List DNode → List Node
  | [] => []
  | d :: ds => derase d :: deraseList ds
end

/-- Python dict lookup `descendant_map[id(node)]` on the association-list
model of the dict. -/
def lookupId : List (Nat × List DNode) → Nat → Option (List DNode)
  | [], _ => none
  | (k, v) :: m, i => if k = i then some v else lookupId m i

/-- `descendant_map[i].pop(0)`: drop the front of the entry stored at `i`. -/
def popFrontAt (i : Nat) : List (Nat × List DNode) → List (Nat × List DNode)
  | [] => []
  | (k, v) :: m => if k = i then (k, v.tail) :: m else (k, v) :: popFrontAt i m

/-- The `while stack:` loop of `Node._postorder`, with fuel: look up the
remaining-descendants entry of the stack top; if it is empty, pop and yield the
node and drop the front of the new top's entry; otherwise push the first
remaining child.  A failed lookup (Python `KeyError`, unreachable from
`dpostorder`) stops the loop. -/
def postGo : Nat → List DNode → List (Nat × List DNode) → List DNode
  | 0, _, _ => []
  | _ + 1, [], _ => []
  | fuel + 1, node :: rest, m =>
    match lookupId m node.nid with
    | none => []
    | some [] =>
      node :: postGo fuel rest (match rest with
        | [] => m
        | parent :: _ => popFrontAt parent.nid m)
    | some (d :: _) => postGo fuel (d :: node :: rest) m

mutual
/-- Number of nodes of a subtree. -/
def dsize : DNode → Nat
  | .mk _ _ _ ds => 1 + dsizeList ds

def dsizeList : List DNode → Nat
  | [] => 0
  | d :: ds => dsize d + dsizeList ds
end

mutual
/-- Exact number of loop iterations `_postorder` spends on one subtree:
one pop per node and one push per non-root node. -/
def dcost : DNode → Nat
  | .mk _ _ _ ds => dcostList ds + 1

def dcostList : List DNode → Nat
  | [] => 0
  | d :: ds => (dcost d + 1) + dcostList ds
end

/-- `Node._postorder`: seed the stack with the node, build the map from
identity to (a fresh copy of) the descendants over `self.walk()`, and run the
loop; fuel `2 * dsize` is enough for the loop to empty the stack. -/
def dpostorder (d : DNode) : List DNode :=
  postGo (2 * dsize d) [d] ((DNode.walk d).map (fun n => (n.nid, n.descendants)))

mutual
/-- Reference post-order: all descendants, then the node itself. -/
def postRec : DNode → List DNode
  | .mk i n l ds => postRecList ds ++ [.mk i n l ds]

def postRecList : List DNode → List DNode
  | [] => []
  | d :: ds => postRec d ++ postRecList ds
end

mutual
/-- Number of nodes of a `Node` subtree (induction measure). -/
def nsize : Node → Nat
  | .mk _ _ ds => 1 + nsizeList ds

def nsizeList : List Node → Nat
  | [] => 0
  | d :: ds => nsize d + nsizeList ds
end

/-- No reserved punctuation character occurs in the text. -/
def noReserved (l : List Char) : Bool :=
  l.all (fun c => !RESERVED_PUNCTUATION.contains c)

/-- An optional label text free of reserved punctuation. -/
def okLabelText (o : Option (List Char)) : Bool :=
  match o with
  | none => true
  | some l => noReserved l

mutual
/-- Valid construction in the sense of the round-trip claim: no reserved
punctuation character in any name or length of the tree. -/
def validTree : Node → Bool
  | .mk n l ds => okLabelText n && okLabelText l && validTreeList ds

def validTreeList : List Node → Bool
  | [] => true
  | d :: ds => validTree d && validTreeList ds
end

/-- No whitespace at either end of the text. -/
def noEdgeSpace (l : List Char) : Bool :=
  (match l.head? with | none => true | some c => !pySpace c) &&
  (match l.getLast? with | none => true | some c => !pySpace c)

/-- An optional label text free of reserved punctuation and of leading or
trailing whitespace. -/
def tidyLabelText (o : Option (List Char)) : Bool :=
  match o with
  | none => true
  | some l => noReserved l && noEdgeSpace l

mutual
/-- Valid construction strengthened by: no name or length starts or ends with
whitespace (the extra condition the round-trip fixed point needs, because
`parse_node` strips every node text it is handed). -/
def wfTree : Node → Bool
  | .mk n l ds => tidyLabelText n && tidyLabelText l && wfTreeList ds

def wfTreeList : List Node → Bool
  | [] => true
  | d :: ds => wfTree d && wfTreeList ds
end

mutual
/-- The serializer as §4.1 of the spec words it, with the wrapping condition
amended from "at least one child exists" to "the joined children text is
non-empty": recursively serialize each child, join with `','`; the label is
the name (or empty text) suffixed with `':'` plus the length when a length is
present (a truthy one, per the spec's empty-is-absent normalization); the
result is the wrapped group followed by the label. -/
def newickSpec : Node → List Char
  | .mk name length ds =>
    let joined := joinSep ',' (newickSpecList ds)
    let label := name.getD [] ++ (if truthy length then ':' :: length.getD [] else [])
    if joined.isEmpty then label else '(' :: joined ++ [')'] ++ label

def newickSpecList : List Node → List (List Char)
  | [] => []
  | d :: ds => newickSpec d :: newickSpecList ds
end

/-- Parenthesis-balance contribution of one character. -/
def charDelta (c : Char) : Int :=
  if c = '(' then 1 else if c = ')' then -1 else 0

/-- Parenthesis balance of a text. -/
def pdelta : List Char → Int
  | [] => 0
  | c :: cs => charDelta c + pdelta cs

/-- Scanning the text from bracket level `lvl`, every comma is met at level
at least 1 (so the sibling scanner never splits inside it). -/
def scanOK : Int → List Char → Bool
  | _, [] => true
  | lvl, c :: cs =>
    (if c = ',' then decide (1 ≤ lvl) else true) && scanOK (lvl + charDelta c) cs

/-- The identity tags of all nodes of a subtree, in pre-order. -/
def subtreeIds (d : DNode) : List Nat := (DNode.walk d).map DNode.nid

/-- What one complete `_postorder` episode on subtree `n` does when `n` sits on
top of the stack: in exactly `dcost n` iterations it emits the recursive
post-order of `n` and returns to the remaining stack with a map that is
unchanged outside `n`'s subtree except that the entry of the new stack top
has lost its front element. -/
def MLprop (n : DNode) : Prop :=
  ∀ (rest : List DNode) (m : List (Nat × List DNode)) (fuel : Nat),
    (∀ x ∈ DNode.walk n, lookupId m x.nid = some x.descendants) →
    (subtreeIds n).Nodup →
    (∀ r ∈ rest, r.nid ∉ subtreeIds n) →
    ∃ m',
      postGo (dcost n + fuel) (n :: rest) m = postRec n ++ postGo fuel rest m' ∧
      ∀ j, j ∉ subtreeIds n →
        lookupId m' j =
          (match rest with
           | [] => lookupId m j
           | parent :: _ =>
             if j = parent.nid then (lookupId m j).map List.tail else lookupId m j)

/-- The decorated runtime form of the tree `(a,(b,c)d)e`, with distinct
identities 0..4. -/
def sampleD : DNode :=
  .mk 0 (some ['e']) none
    [.mk 1 (some ['a']) none [],
     .mk 2 (some ['d']) none
       [.mk 3 (some ['b']) none [], .mk 4 (some ['c']) none []]]

/-! Basic facts about the string helpers. -/

theorem newickList_eq_map (ds : List Node) : newickList ds = ds.map Node.newick := by
  induction ds with
  | nil => rfl
  | cons d ds ih => simp [newickList, ih]

theorem newick_mk (n l : Option (List Char)) (ds : List Node) :
    (Node.mk n l ds).newick =
      (if (joinSep ',' (newickList ds)).isEmpty then []
       else '(' :: (joinSep ',' (newickList ds) ++ [')'])) ++ labelOf n l := rfl

theorem joinSep_cons_of_ne (sep : Char) (x : List Char) {xs : List (List Char)}
    (h : xs ≠ []) : joinSep sep (x :: xs) = x ++ sep :: joinSep sep xs := by
  cases xs with
  | nil => exact absurd rfl h
  | cons y ys => rfl

theorem pySplit_ne_nil (sep : Char) (s : List Char) : pySplit sep s ≠ [] := by
  induction s with
  | nil => simp [pySplit]
  | cons c cs ih =>
    simp only [pySplit]
    split
    · simp
    · cases h : pySplit sep cs with
      | nil => simp
      | cons p ps => simp

theorem pySplit_cons_of_ne (sep c : Char) (cs : List Char) (h : ¬c = sep) :
    ∃ p ps, pySplit sep cs = p :: ps ∧ pySplit sep (c :: cs) = (c :: p) :: ps := by
  cases hs : pySplit sep cs with
  | nil => exact absurd hs (pySplit_ne_nil sep cs)
  | cons p ps =>
    refine ⟨p, ps, rfl, ?_⟩
    simp only [pySplit, if_neg h, hs]

theorem pySplit_sep_cons (sep : Char) (cs : List Char) :
    pySplit sep (sep :: cs) = [] :: pySplit sep cs := by
  simp [pySplit]

theorem joinSep_pySplit (sep : Char) (s : List Char) :
    joinSep sep (pySplit sep s) = s := by
  induction s with
  | nil => rfl
  | cons c cs ih =>
    by_cases hc : c = sep
    · subst hc
      rw [pySplit_sep_cons, joinSep_cons_of_ne c [] (pySplit_ne_nil c cs), ih]
      rfl
    · obtain ⟨p, ps, hps, hcons⟩ := pySplit_cons_of_ne sep c cs hc
      rw [hcons]
      cases ps with
      | nil =>
        have : joinSep sep [p] = cs := by rw [← hps]; exact ih
        simpa [joinSep] using congrArg (c :: ·) this
      | cons q qs =>
        have h1 : joinSep sep (p :: q :: qs) = cs := by rw [← hps]; exact ih
        have h2 : joinSep sep (p :: q :: qs) = p ++ sep :: joinSep sep (q :: qs) := rfl
        rw [joinSep_cons_of_ne sep (c :: p) (by simp)]
        rw [← h1, h2]
        simp

theorem pySplit_of_not_mem {sep : Char} {s : List Char} (h : sep ∉ s) :
    pySplit sep s = [s] := by
  induction s with
  | nil => rfl
  | cons c cs ih =>
    have hc : ¬c = sep := fun hc => h (hc ▸ List.mem_cons_self c cs)
    obtain ⟨p, ps, hps, hcons⟩ := pySplit_cons_of_ne sep c cs hc
    have : pySplit sep cs = [cs] := ih (fun hm => h (List.mem_cons_of_mem c hm))
    rw [this] at hps
    cases hps
    simpa using hcons

theorem pySplit_append_right {sep : Char} (A : List Char) {B : List Char}
    (h : sep ∉ B) : pySplit sep (A ++ sep :: B) = pySplit sep A ++ [B] := by
  induction A with
  | nil => simp [pySplit_sep_cons, pySplit_of_not_mem h, pySplit]
  | cons c A ih =>
    by_cases hc : c = sep
    · subst hc
      rw [List.cons_append, pySplit_sep_cons, pySplit_sep_cons, ih]
      rfl
    · obtain ⟨p, ps, hps, hcons⟩ := pySplit_cons_of_ne sep c (A ++ sep :: B) hc
      rw [ih] at hps
      obtain ⟨q, qs, hqs, hcons2⟩ := pySplit_cons_of_ne sep c A hc
      rw [List.cons_append, hcons, hcons2]
      rw [hqs] at hps
      cases hps
      rfl

theorem pySplit_append_left {sep : Char} {A : List Char} (B : List Char)
    (h : sep ∉ A) : pySplit sep (A ++ sep :: B) = A :: pySplit sep B := by
  induction A with
  | nil => simp [pySplit_sep_cons]
  | cons c A ih =>
    have hc : ¬c = sep := fun hc => h (hc ▸ List.mem_cons_self c A)
    have ihA := ih (fun hm => h (List.mem_cons_of_mem c hm))
    obtain ⟨p, ps, hps, hcons⟩ := pySplit_cons_of_ne sep c (A ++ sep :: B) hc
    rw [List.cons_append, hcons]
    rw [ihA] at hps
    cases hps
    rfl

theorem two_le_pySplit {sep : Char} {s : List Char} (h : sep ∈ s) :
    2 ≤ (pySplit sep s).length := by
  induction s with
  | nil => cases h
  | cons c cs ih =>
    by_cases hc : c = sep
    · subst hc
      have := pySplit_ne_nil c cs
      rw [pySplit_sep_cons]
      cases hcs : pySplit c cs with
      | nil => exact absurd hcs this
      | cons p ps => simp
    · obtain ⟨p, ps, hps, hcons⟩ := pySplit_cons_of_ne sep c cs hc
      have hm : sep ∈ cs := by
        rcases List.mem_cons.mp h with h1 | h1
        · exact absurd h1.symm hc
        · exact h1
      have := ih hm
      rw [hps] at this
      rw [hcons]
      simpa using this

theorem getLastD_concat (y d : List Char) (zs : List (List Char)) :
    (zs ++ [y]).getLastD d = y := by
  induction zs with
  | nil => rfl
  | cons z zs ih =>
    cases zs with
    | nil => rfl
    | cons w ws => simpa using ih

theorem length_le_joinSep {sep : Char} {x : List Char} {L : List (List Char)}
    (h : x ∈ L) : x.length ≤ (joinSep sep L).length := by
  induction L with
  | nil => cases h
  | cons y ys ih =>
    rcases List.mem_cons.mp h with h1 | h1
    · subst h1
      cases ys with
      | nil => simp [joinSep]
      | cons z zs =>
        rw [joinSep_cons_of_ne sep x (List.cons_ne_nil z zs)]
        simp
    · have := ih h1
      have hys : ys ≠ [] := by rintro rfl; cases h1
      rw [joinSep_cons_of_ne sep y hys]
      simp only [List.length_append, List.length_cons]
      omega

theorem pyStrip_eq_self {s : List Char}
    (h1 : ∀ c, s.head? = some c → pySpace c = false)
    (h2 : ∀ c, s.getLast? = some c → pySpace c = false) :
    pyStrip s = s := by
  have e1 : s.dropWhile pySpace = s := by
    cases s with
    | nil => rfl
    | cons c cs =>
      rw [List.dropWhile_cons]
      simp [h1 c rfl]
  have e2 : s.reverse.dropWhile pySpace = s.reverse := by
    cases hr : s.reverse with
    | nil => rfl
    | cons c cs =>
      have : s.getLast? = some c := by
        rw [← List.head?_reverse, hr]
        rfl
      rw [List.dropWhile_cons]
      simp [h2 c this]
  unfold pyStrip
  rw [e1, e2, List.reverse_reverse]

theorem pdelta_append (a b : List Char) : pdelta (a ++ b) = pdelta a + pdelta b := by
  induction a with
  | nil => simp [pdelta]
  | cons c cs ih => simp [pdelta, ih]; ring

theorem pdelta_of_no_paren {s : List Char} (h1 : '(' ∉ s) (h2 : ')' ∉ s) :
    pdelta s = 0 := by
  induction s with
  | nil => rfl
  | cons c cs ih =>
    have hc1 : ¬c = '(' := fun hc => h1 (hc ▸ List.mem_cons_self c cs)
    have hc2 : ¬c = ')' := fun hc => h2 (hc ▸ List.mem_cons_self c cs)
    have := ih (fun hm => h1 (List.mem_cons_of_mem c hm))
      (fun hm => h2 (List.mem_cons_of_mem c hm))
    simp [pdelta, charDelta, hc1, hc2, this]

theorem scanOK_append (lvl : Int) (a b : List Char) :
    scanOK lvl (a ++ b) = (scanOK lvl a && scanOK (lvl + pdelta a) b) := by
  induction a generalizing lvl with
  | nil => simp [scanOK, pdelta]
  | cons c cs ih =>
    simp only [List.cons_append, scanOK, pdelta, List.append_eq]
    rw [ih (lvl + charDelta c)]
    simp [Bool.and_assoc, add_assoc]

theorem scanOK_of_no_comma {s : List Char} (h : ',' ∉ s) (lvl : Int) :
    scanOK lvl s = true := by
  induction s generalizing lvl with
  | nil => rfl
  | cons c cs ih =>
    have hc : ¬c = ',' := fun hc => h (hc ▸ List.mem_cons_self c cs)
    have := ih (fun hm => h (List.mem_cons_of_mem c hm))
    simp [scanOK, hc, this]

theorem sibGo_level (c : Char) (level : Int) :
    (if c = '(' then level + 1 else if c = ')' then level - 1 else level) =
      level + charDelta c := by
  by_cases h1 : c = '('
  · simp [h1, charDelta]
  · by_cases h2 : c = ')'
    · simp [h1, h2, charDelta]; ring
    · simp [h1, h2, charDelta]

theorem sibGo_skip (c : List Char) :
    ∀ (lvl : Int) (cur rest : List Char), scanOK lvl c = true →
      sibGo (c ++ rest) lvl cur = sibGo rest (lvl + pdelta c) (cur ++ c) := by
  induction c with
  | nil => intro lvl cur rest _; simp [pdelta]
  | cons ch cs ih =>
    intro lvl cur rest hscan
    rw [scanOK] at hscan
    rcases (Bool.and_eq_true _ _).mp hscan with ⟨hcond, hrest⟩
    simp only [List.cons_append, sibGo, List.append_eq]
    have hnot : ¬(ch = ',' && lvl == 0) = true := by
      intro hcontra
      rcases (Bool.and_eq_true _ _).mp hcontra with ⟨hc1, hc2⟩
      have hch : ch = ',' := by simpa using hc1
      rw [if_pos hch] at hcond
      have h1 : (1 : Int) ≤ lvl := by simpa using hcond
      have h0 : lvl = 0 := by simpa using hc2
      omega
    rw [if_neg hnot, sibGo_level, ih (lvl + charDelta ch) (cur ++ [ch]) rest hrest]
    simp only [pdelta, List.append_assoc, List.singleton_append]
    rw [add_assoc]

theorem siblingChunks_join {L : List (List Char)} (hne : L ≠ [])
    (h : ∀ x ∈ L, scanOK 0 x = true ∧ pdelta x = 0) :
    siblingChunks (joinSep ',' L) = L := by
  induction L with
  | nil => exact absurd rfl hne
  | cons x L ih =>
    rcases h x (List.mem_cons_self x L) with ⟨hx, hdx⟩
    cases L with
    | nil =>
      unfold siblingChunks
      have hj : joinSep ',' [x] = x := rfl
      rw [hj, sibGo_skip x 0 [] [','] hx, hdx]
      rfl
    | cons y ys =>
      unfold siblingChunks
      rw [joinSep_cons_of_ne ',' x (List.cons_ne_nil y ys)]
      rw [List.append_assoc, List.cons_append]
      rw [sibGo_skip x 0 [] (',' :: (joinSep ',' (y :: ys) ++ [','])) hx, hdx]
      simp only [add_zero, List.nil_append]
      have step : sibGo (',' :: (joinSep ',' (y :: ys) ++ [','])) 0 x =
          x :: sibGo (joinSep ',' (y :: ys) ++ [',']) 0 [] := by
        simp [sibGo]
      rw [step]
      have := ih (List.cons_ne_nil y ys)
        (fun z hz => h z (List.mem_cons_of_mem x hz))
      unfold siblingChunks at this
      simp [this]

theorem exceptMapM_error {l : List (List Char)} {f : List Char → Except NewickError Node}
    {e : NewickError} (h : exceptMapM f l = .error e) : ∃ x ∈ l, f x = .error e := by
  induction l with
  | nil =>
    rw [exceptMapM] at h
    exact Except.noConfusion h
  | cons a l ih =>
    rw [exceptMapM] at h
    cases ha : f a with
    | error e' =>
      rw [ha] at h
      have h2 : (Except.error e' : Except NewickError (List Node)) = .error e := h
      cases h2
      exact ⟨a, List.mem_cons_self a l, ha⟩
    | ok b =>
      rw [ha] at h
      cases hl : exceptMapM f l with
      | error e' =>
        rw [hl] at h
        have h2 : (Except.error e' : Except NewickError (List Node)) = .error e := h
        cases h2
        obtain ⟨x, hx, hfx⟩ := ih hl
        exact ⟨x, List.mem_cons_of_mem a hx, hfx⟩
      | ok bs =>
        rw [hl] at h
        have h2 : (Except.ok (b :: bs) : Except NewickError (List Node)) = .error e := h
        exact Except.noConfusion h2

/-! Label texts, validation and `_parse_name_and_length`. -/

theorem getD_listOrNone (l : List Char) : (listOrNone l).getD [] = l := by
  cases l <;> rfl

theorem truthy_listOrNone (l : List Char) : truthy (listOrNone l) = !l.isEmpty := by
  cases l <;> rfl

theorem truthy_none : truthy none = false := rfl

theorem contains_eq_false_iff {l : List Char} {c : Char} :
    l.contains c = false ↔ c ∉ l := by
  rw [← Bool.not_eq_true, not_iff_not]
  exact List.elem_iff

theorem noReserved_contains {l : List Char} (h : noReserved l = true) {c : Char}
    (hc : c ∈ RESERVED_PUNCTUATION) : l.contains c = false := by
  rw [contains_eq_false_iff]
  intro hcl
  have h2 := List.all_eq_true.mp h c hcl
  rw [Bool.not_eq_true'] at h2
  exact absurd hc (contains_eq_false_iff.mp h2)

theorem not_mem_of_noReserved {l : List Char} (h : noReserved l = true) {c : Char}
    (hc : c ∈ RESERVED_PUNCTUATION) : c ∉ l :=
  contains_eq_false_iff.mp (noReserved_contains h hc)

theorem create_ok {n l : Option (List Char)} (hn : noReserved (n.getD []) = true)
    (hl : noReserved (l.getD []) = true) (ds : List Node) :
    Node.create n l ds = .ok (.mk n l ds) := by
  unfold Node.create
  have hfind : (RESERVED_PUNCTUATION.find? fun c =>
      (truthy n && (n.getD []).contains c) ||
      (truthy l && (l.getD []).contains c)) = none := by
    rw [List.find?_eq_none]
    intro c hc
    rw [noReserved_contains hn hc, noReserved_contains hl hc]
    simp
  rw [hfind]

theorem mem_labelOf {c : Char} {n l : Option (List Char)} (h : c ∈ labelOf n l) :
    c ∈ n.getD [] ∨ c = ':' ∨ c ∈ l.getD [] := by
  unfold labelOf at h
  rcases List.mem_append.mp h with h1 | h1
  · exact Or.inl h1
  · by_cases ht : truthy l = true
    · rw [if_pos ht] at h1
      rcases List.mem_cons.mp h1 with h2 | h2
      · exact Or.inr (Or.inl h2)
      · exact Or.inr (Or.inr h2)
    · rw [if_neg ht] at h1
      cases h1

theorem labelOf_no_reserved {c : Char} (hc : c ∈ RESERVED_PUNCTUATION)
    (hne : c ≠ ':') {n l : Option (List Char)}
    (hn : noReserved (n.getD []) = true) (hl : noReserved (l.getD []) = true) :
    c ∉ labelOf n l := by
  intro hmem
  rcases mem_labelOf hmem with h | h | h
  · exact not_mem_of_noReserved hn hc h
  · exact hne h
  · exact not_mem_of_noReserved hl hc h

theorem takeWhile_append_sat {p : Char → Bool} {a : List Char}
    (h : ∀ c ∈ a, p c = true) {b : Char} (hb : p b = false) (rest : List Char) :
    (a ++ b :: rest).takeWhile p = a ∧ (a ++ b :: rest).dropWhile p = b :: rest := by
  induction a with
  | nil => simp [List.takeWhile_cons, List.dropWhile_cons, hb]
  | cons x xs ih =>
    have hx := h x (List.mem_cons_self x xs)
    have ih2 := ih (fun c hc => h c (List.mem_cons_of_mem x hc))
    simp only [List.cons_append, List.takeWhile_cons, List.dropWhile_cons, hx,
      if_pos]
    exact ⟨by rw [ih2.1], by rw [ih2.2]⟩

theorem parseNameAndLength_labelOf {n l : Option (List Char)}
    (hn : noReserved (n.getD []) = true) (hl : noReserved (l.getD []) = true) :
    noReserved ((parseNameAndLength (labelOf n l)).1.getD []) = true ∧
    noReserved ((parseNameAndLength (labelOf n l)).2.getD []) = true ∧
    labelOf (parseNameAndLength (labelOf n l)).1 (parseNameAndLength (labelOf n l)).2
      = labelOf n l := by
  by_cases ht : truthy l = true
  · obtain ⟨lv, rfl⟩ : ∃ lv, l = some lv := by
      cases l with
      | none => cases ht
      | some lv => exact ⟨lv, rfl⟩
    have hlv : lv ≠ [] := by
      intro hc
      rw [hc] at ht
      cases ht
    have hlab : labelOf n (some lv) = n.getD [] ++ ':' :: lv := by
      unfold labelOf
      rw [if_pos ht]
      rfl
    have hcontains : (labelOf n (some lv)).contains ':' = true := by
      have : (':' : Char) ∈ labelOf n (some lv) := by
        rw [hlab]
        exact List.mem_append.mpr (Or.inr (List.mem_cons_self _ _))
      exact List.elem_iff.mpr this
    have htw := takeWhile_append_sat (p := fun c => decide (c ≠ ':'))
      (a := n.getD []) (fun c hc => by
        simp only [decide_eq_true_iff]
        intro hcol
        exact not_mem_of_noReserved hn (by decide) (hcol ▸ hc))
      (b := ':') (by simp) lv
    have hres : parseNameAndLength (labelOf n (some lv)) =
        (listOrNone (n.getD []), listOrNone lv) := by
      unfold parseNameAndLength
      rw [if_pos hcontains, hlab, htw.1, htw.2]
      rfl
    rw [hres]
    refine ⟨by rw [getD_listOrNone]; exact hn, by rw [getD_listOrNone]; exact hl, ?_⟩
    unfold labelOf
    rw [getD_listOrNone, truthy_listOrNone, getD_listOrNone]
    have : (!lv.isEmpty) = true := by
      cases lv with
      | nil => exact absurd rfl hlv
      | cons a as => rfl
    rw [this, if_pos rfl, if_pos ht]
    rfl
  · have hlab : labelOf n l = n.getD [] := by
      unfold labelOf
      rw [if_neg ht, List.append_nil]
    have hcontains : (labelOf n l).contains ':' = false := by
      rw [hlab]
      exact noReserved_contains hn (by decide)
    have hres : parseNameAndLength (labelOf n l) = (listOrNone (n.getD []), none) := by
      unfold parseNameAndLength
      rw [hcontains]
      simp [hlab]
    rw [hres]
    refine ⟨by rw [getD_listOrNone]; exact hn, by simp [noReserved], ?_⟩
    unfold labelOf
    rw [truthy_none, eq_false_of_ne_true ht, getD_listOrNone]
    simp

/-! Wellformed trees and the shape of their serializations. -/

theorem wfTree_parts {n l : Option (List Char)} {ds : List Node}
    (h : wfTree (.mk n l ds) = true) :
    tidyLabelText n = true ∧ tidyLabelText l = true ∧ wfTreeList ds = true := by
  rw [wfTree] at h
  rcases (Bool.and_eq_true _ _).mp h with ⟨h1, h3⟩
  rcases (Bool.and_eq_true _ _).mp h1 with ⟨h1, h2⟩
  exact ⟨h1, h2, h3⟩

theorem wfTreeList_mem {ds : List Node} (h : wfTreeList ds = true) {d : Node}
    (hd : d ∈ ds) : wfTree d = true := by
  induction ds with
  | nil => cases hd
  | cons x xs ih =>
    rw [wfTreeList] at h
    rcases (Bool.and_eq_true _ _).mp h with ⟨h1, h2⟩
    rcases List.mem_cons.mp hd with h3 | h3
    · exact h3 ▸ h1
    · exact ih h2 h3

theorem tidy_noReserved {o : Option (List Char)} (h : tidyLabelText o = true) :
    noReserved (o.getD []) = true := by
  cases o with
  | none => rfl
  | some x =>
    rw [tidyLabelText] at h
    exact ((Bool.and_eq_true _ _).mp h).1

theorem tidy_head {o : Option (List Char)} (h : tidyLabelText o = true) :
    ∀ c, (o.getD []).head? = some c → pySpace c = false := by
  intro c hc
  cases o with
  | none => cases hc
  | some x =>
    rw [tidyLabelText] at h
    have h2 := ((Bool.and_eq_true _ _).mp h).2
    rw [noEdgeSpace] at h2
    have h3 := ((Bool.and_eq_true _ _).mp h2).1
    simp only [Option.getD] at hc
    rw [hc] at h3
    rw [Bool.not_eq_true'] at h3
    exact h3

theorem tidy_last {o : Option (List Char)} (h : tidyLabelText o = true) :
    ∀ c, (o.getD []).getLast? = some c → pySpace c = false := by
  intro c hc
  cases o with
  | none => cases hc
  | some x =>
    rw [tidyLabelText] at h
    have h2 := ((Bool.and_eq_true _ _).mp h).2
    rw [noEdgeSpace] at h2
    have h3 := ((Bool.and_eq_true _ _).mp h2).2
    simp only [Option.getD] at hc
    rw [hc] at h3
    rw [Bool.not_eq_true'] at h3
    exact h3

theorem labelOf_head_not_space {n l : Option (List Char)}
    (hn : tidyLabelText n = true) (_hl : tidyLabelText l = true) :
    ∀ c, (labelOf n l).head? = some c → pySpace c = false := by
  intro c hc
  unfold labelOf at hc
  rw [List.head?_append] at hc
  cases hh : (n.getD []).head? with
  | some a =>
    rw [hh] at hc
    simp only [Option.or] at hc
    cases hc
    exact tidy_head hn _ hh
  | none =>
    rw [hh] at hc
    simp only [Option.or] at hc
    by_cases ht : truthy l = true
    · rw [if_pos ht] at hc
      simp only [List.head?] at hc
      cases hc
      decide
    · rw [if_neg ht] at hc
      cases hc

theorem labelOf_last_not_space {n l : Option (List Char)}
    (hn : tidyLabelText n = true) (hl : tidyLabelText l = true) :
    ∀ c, (labelOf n l).getLast? = some c → pySpace c = false := by
  intro c hc
  unfold labelOf at hc
  rw [List.getLast?_append] at hc
  by_cases ht : truthy l = true
  · rw [if_pos ht] at hc
    obtain ⟨lv, rfl⟩ : ∃ lv, l = some lv := by
      cases l with
      | none => cases ht
      | some lv => exact ⟨lv, rfl⟩
    have hlv : lv ≠ [] := by
      intro h0
      rw [truthy, h0] at ht
      cases ht
    have hgl : (':' :: (some lv : Option (List Char)).getD []).getLast? = lv.getLast? := by
      show (':' :: lv).getLast? = lv.getLast?
      cases lv with
      | nil => exact absurd rfl hlv
      | cons a as => rw [List.getLast?_cons_cons]
    rw [hgl] at hc
    cases hgll : lv.getLast? with
    | some b =>
      rw [hgll] at hc
      simp only [Option.or] at hc
      cases hc
      exact tidy_last hl _ (by simpa using hgll)
    | none =>
      rw [List.getLast?_eq_none_iff] at hgll
      exact absurd hgll hlv
  · rw [if_neg ht] at hc
    simp only [List.getLast?, Option.or] at hc
    exact tidy_last hn c hc

theorem newick_head_not_space {T : Node} (h : wfTree T = true) :
    ∀ c, T.newick.head? = some c → pySpace c = false := by
  cases T with
  | mk n l ds =>
    rcases wfTree_parts h with ⟨hn, hl, _⟩
    intro c hc
    rw [newick_mk] at hc
    by_cases hj : (joinSep ',' (newickList ds)).isEmpty = true
    · rw [if_pos hj, List.nil_append] at hc
      exact labelOf_head_not_space hn hl c hc
    · rw [if_neg hj, List.cons_append, List.head?_cons] at hc
      cases hc
      decide

theorem newick_last_not_space {T : Node} (h : wfTree T = true) :
    ∀ c, T.newick.getLast? = some c → pySpace c = false := by
  cases T with
  | mk n l ds =>
    rcases wfTree_parts h with ⟨hn, hl, _⟩
    intro c hc
    rw [newick_mk, List.getLast?_append] at hc
    cases hlab : (labelOf n l).getLast? with
    | some b =>
      rw [hlab] at hc
      simp only [Option.or] at hc
      cases hc
      exact labelOf_last_not_space hn hl _ hlab
    | none =>
      rw [hlab] at hc
      simp only [Option.or] at hc
      by_cases hj : (joinSep ',' (newickList ds)).isEmpty = true
      · rw [if_pos hj] at hc
        cases hc
      · rw [if_neg hj] at hc
        have : ('(' :: (joinSep ',' (newickList ds) ++ [')'])).getLast? = some ')' := by
          rw [← List.cons_append, List.getLast?_concat]
        rw [this] at hc
        cases hc
        decide

theorem pyStrip_newick {T : Node} (h : wfTree T = true) :
    pyStrip T.newick = T.newick :=
  pyStrip_eq_self (newick_head_not_space h) (newick_last_not_space h)

theorem nsize_pos (T : Node) : 1 ≤ nsize T := by
  cases T with
  | mk n l ds =>
    rw [nsize]
    omega

theorem nsizeList_mem {ds : List Node} {d : Node} (hd : d ∈ ds) :
    nsize d ≤ nsizeList ds := by
  induction ds with
  | nil => cases hd
  | cons x xs ih =>
    rw [nsizeList]
    rcases List.mem_cons.mp hd with h | h
    · subst h
      omega
    · have := ih h
      omega

theorem labelOf_pdelta {n l : Option (List Char)}
    (hn : noReserved (n.getD []) = true) (hl : noReserved (l.getD []) = true) :
    pdelta (labelOf n l) = 0 :=
  pdelta_of_no_paren (labelOf_no_reserved (by decide) (by decide) hn hl)
    (labelOf_no_reserved (by decide) (by decide) hn hl)

theorem labelOf_scan {n l : Option (List Char)}
    (hn : noReserved (n.getD []) = true) (hl : noReserved (l.getD []) = true)
    (lvl : Int) : scanOK lvl (labelOf n l) = true :=
  scanOK_of_no_comma (labelOf_no_reserved (by decide) (by decide) hn hl) lvl

theorem pdelta_joinSep {L : List (List Char)} (h : ∀ x ∈ L, pdelta x = 0) :
    pdelta (joinSep ',' L) = 0 := by
  induction L with
  | nil => rfl
  | cons x xs ih =>
    cases xs with
    | nil => exact h x (List.mem_cons_self x [])
    | cons y ys =>
      rw [joinSep_cons_of_ne ',' x (List.cons_ne_nil y ys), pdelta_append]
      have h1 := h x (List.mem_cons_self x (y :: ys))
      have h2 := ih (fun z hz => h z (List.mem_cons_of_mem x hz))
      rw [h1, pdelta, h2]
      decide

theorem scanOK_joinSep {L : List (List Char)}
    (hL : ∀ x ∈ L, pdelta x = 0 ∧ ∀ lvl : Int, 0 ≤ lvl → scanOK lvl x = true) :
    ∀ lvl : Int, 1 ≤ lvl → scanOK lvl (joinSep ',' L) = true := by
  induction L with
  | nil => intro lvl _; rfl
  | cons x xs ih =>
    intro lvl hlvl
    rcases hL x (List.mem_cons_self x xs) with ⟨hx0, hxs⟩
    cases xs with
    | nil => exact hxs lvl (by omega)
    | cons y ys =>
      rw [joinSep_cons_of_ne ',' x (List.cons_ne_nil y ys), scanOK_append]
      refine (Bool.and_eq_true _ _).mpr ⟨hxs lvl (by omega), ?_⟩
      rw [hx0, add_zero, scanOK]
      have hcd : charDelta ',' = 0 := by decide
      rw [hcd, add_zero, if_pos rfl]
      refine (Bool.and_eq_true _ _).mpr ⟨by simpa using hlvl, ?_⟩
      exact ih (fun z hz => hL z (List.mem_cons_of_mem x hz)) lvl hlvl

theorem newick_scan : ∀ (k : Nat) (T : Node), nsize T ≤ k → wfTree T = true →
    pdelta T.newick = 0 ∧ ∀ lvl : Int, 0 ≤ lvl → scanOK lvl T.newick = true := by
  intro k
  induction k with
  | zero =>
    intro T hsize _
    have := nsize_pos T
    omega
  | succ k ih =>
    intro T hsize hwf
    cases T with
    | mk n l ds =>
      rcases wfTree_parts hwf with ⟨hn, hl, hds⟩
      have hnR := tidy_noReserved hn
      have hlR := tidy_noReserved hl
      have hchild : ∀ x ∈ newickList ds,
          pdelta x = 0 ∧ ∀ lvl : Int, 0 ≤ lvl → scanOK lvl x = true := by
        intro x hx
        rw [newickList_eq_map] at hx
        obtain ⟨d, hd, rfl⟩ := List.mem_map.mp hx
        have h1 : nsize d ≤ k := by
          have h2 := nsizeList_mem hd
          rw [nsize] at hsize
          omega
        exact ih d h1 (wfTreeList_mem hds hd)
      constructor
      · rw [newick_mk, pdelta_append]
        have hlab0 := labelOf_pdelta hnR hlR
        by_cases hj : (joinSep ',' (newickList ds)).isEmpty = true
        · rw [if_pos hj, hlab0, pdelta]
          decide
        · rw [if_neg hj]
          have hJ : pdelta (joinSep ',' (newickList ds)) = 0 :=
            pdelta_joinSep (fun x hx => (hchild x hx).1)
          rw [pdelta, pdelta_append, hJ, hlab0, pdelta, pdelta]
          decide
      · intro lvl hlvl
        rw [newick_mk, scanOK_append]
        refine (Bool.and_eq_true _ _).mpr ⟨?_, labelOf_scan hnR hlR _⟩
        by_cases hj : (joinSep ',' (newickList ds)).isEmpty = true
        · rw [if_pos hj]
          rfl
        · rw [if_neg hj, scanOK]
          have hne : ¬('(' : Char) = ',' := by decide
          rw [if_neg hne, scanOK_append]
          have hcd : charDelta '(' = 1 := by decide
          refine (Bool.and_eq_true _ _).mpr ⟨rfl, (Bool.and_eq_true _ _).mpr ⟨?_, ?_⟩⟩
          · rw [hcd]
            exact scanOK_joinSep hchild (lvl + 1) (by omega)
          · exact scanOK_of_no_comma (by decide) _

/-! The parse of a wellformed tree's serialization. -/

theorem parseNodeF_succ (f : Nat) (s : List Char) :
    parseNodeF (f + 1) s =
      (if (pySplit ')' (pyStrip s)).length == 1 then
        Node.create (parseNameAndLength (pyStrip s)).1
          (parseNameAndLength (pyStrip s)).2 []
      else if ((pySplit ')' (pyStrip s)).headD []).head? == some '(' then
        (do
          let ds ← exceptMapM (parseNodeF f)
            (siblingChunks ((joinSep ')' ((pySplit ')' (pyStrip s)).dropLast)).drop 1))
          let nl := parseNameAndLength ((pySplit ')' (pyStrip s)).getLastD [])
          Node.create nl.1 nl.2 ds)
      else .error (.unmatchedBraces (((pySplit ')' (pyStrip s)).headD []).take 100))) :=
  rfl

theorem exceptMapM_ok_pointwise {g : List Char → Except NewickError Node}
    {L : List (List Char)}
    (h : ∀ x ∈ L, ∃ N, g x = .ok N ∧ N.newick = x) :
    ∃ ns, exceptMapM g L = .ok ns ∧ newickList ns = L := by
  induction L with
  | nil => exact ⟨[], rfl, rfl⟩
  | cons x xs ih =>
    obtain ⟨N, hN, hNw⟩ := h x (List.mem_cons_self x xs)
    obtain ⟨ns, hns, hnsw⟩ := ih (fun z hz => h z (List.mem_cons_of_mem x hz))
    refine ⟨N :: ns, ?_, ?_⟩
    · rw [exceptMapM, hN, hns]
      rfl
    · rw [newickList, hNw, hnsw]

theorem parseNodeF_roundtrip : ∀ (k : Nat) (T : Node), nsize T ≤ k →
    wfTree T = true → ∀ fuel : Nat, T.newick.length < fuel →
    ∃ N : Node, parseNodeF fuel T.newick = .ok N ∧ N.newick = T.newick := by
  intro k
  induction k with
  | zero =>
    intro T hsize _
    have := nsize_pos T
    omega
  | succ k ih =>
    intro T hsize hwf fuel hfuel
    cases fuel with
    | zero => omega
    | succ f =>
      cases T with
      | mk n l ds =>
        rcases wfTree_parts hwf with ⟨hn, hl, hds⟩
        have hnR := tidy_noReserved hn
        have hlR := tidy_noReserved hl
        have hlabno : (')' : Char) ∉ labelOf n l :=
          labelOf_no_reserved (by decide) (by decide) hnR hlR
        rcases parseNameAndLength_labelOf hnR hlR with ⟨hr1, hr2, hr3⟩
        by_cases hj : (joinSep ',' (newickList ds)).isEmpty = true
        · -- the joined children text is empty: the whole text is the label
          have hnw : (Node.mk n l ds).newick = labelOf n l := by
            rw [newick_mk, if_pos hj, List.nil_append]
          rw [parseNodeF_succ, pyStrip_newick hwf, hnw, pySplit_of_not_mem hlabno]
          rw [if_pos (by rfl)]
          exact ⟨_, create_ok hr1 hr2 [], hr3⟩
        · -- the children wrap in parentheses
          have hshape : (Node.mk n l ds).newick =
              ('(' :: joinSep ',' (newickList ds)) ++ ')' :: labelOf n l := by
            rw [newick_mk, if_neg hj]
            simp [List.append_assoc]
          obtain ⟨p, ps, hps, hcons⟩ :=
            pySplit_cons_of_ne ')' '(' (joinSep ',' (newickList ds)) (by decide)
          have hLne : newickList ds ≠ [] := by
            intro h0
            exact hj (by rw [h0]; rfl)
          have hchunks : siblingChunks (joinSep ',' (newickList ds)) = newickList ds := by
            refine siblingChunks_join hLne ?_
            intro x hx
            rw [newickList_eq_map] at hx
            obtain ⟨d, hd, rfl⟩ := List.mem_map.mp hx
            have hwd := wfTreeList_mem hds hd
            exact ⟨(newick_scan (nsize d) d le_rfl hwd).2 0 le_rfl,
              (newick_scan (nsize d) d le_rfl hwd).1⟩
          have hpoint : ∀ x ∈ newickList ds,
              ∃ N, parseNodeF f x = .ok N ∧ N.newick = x := by
            intro x hx
            have hxJ : x.length ≤ (joinSep ',' (newickList ds)).length :=
              length_le_joinSep hx
            rw [newickList_eq_map] at hx
            obtain ⟨d, hd, rfl⟩ := List.mem_map.mp hx
            have hsz : nsize d ≤ k := by
              have h2 := nsizeList_mem hd
              rw [nsize] at hsize
              omega
            refine ih d hsz (wfTreeList_mem hds hd) f ?_
            have hlen : (Node.mk n l ds).newick.length =
                (joinSep ',' (newickList ds)).length + (labelOf n l).length + 2 := by
              rw [hshape]
              simp [List.length_append]
              omega
            rw [hlen] at hfuel
            omega
          obtain ⟨ns, hmapm, hnsw⟩ := exceptMapM_ok_pointwise hpoint
          have hc1 : ¬(((pySplit ')'
              (('(' :: joinSep ',' (newickList ds)) ++ ')' :: labelOf n l)).length
                == 1) = true) := by
            rw [pySplit_append_right _ hlabno, hcons]
            simp only [beq_iff_eq, List.cons_append, List.length_cons,
              List.length_append]
            omega
          rw [parseNodeF_succ, pyStrip_newick hwf, hshape, if_neg hc1]
          rw [pySplit_append_right _ hlabno, hcons]
          have hc2 : (((('(' :: p) :: ps ++ [labelOf n l]).headD []).head?
              == some '(') = true := by rfl
          rw [if_pos hc2]
          have hdrop : (('(' :: p) :: ps ++ [labelOf n l]).dropLast =
              ('(' :: p) :: ps := List.dropLast_concat
          have hlast : (('(' :: p) :: ps ++ [labelOf n l]).getLastD [] =
              labelOf n l := getLastD_concat _ _ _
          rw [hdrop, hlast, ← hcons, joinSep_pySplit]
          have hdrop1 : List.drop 1 ('(' :: joinSep ',' (newickList ds)) =
              joinSep ',' (newickList ds) := rfl
          rw [hdrop1, hchunks, hmapm]
          refine ⟨Node.mk (parseNameAndLength (labelOf n l)).1
            (parseNameAndLength (labelOf n l)).2 ns, ?_, ?_⟩
          · exact create_ok hr1 hr2 ns
          · rw [newick_mk, hnsw, if_neg hj, hr3]
            simp [List.append_assoc]

theorem create_error_invalid {a b : Option (List Char)} {ds : List Node}
    {e : NewickError} (h : Node.create a b ds = .error e) :
    ∃ c, e = .invalidLabel c := by
  unfold Node.create at h
  cases hf : List.find? (fun c => (truthy a && (a.getD []).contains c) ||
      (truthy b && (b.getD []).contains c)) RESERVED_PUNCTUATION with
  | none =>
    rw [hf] at h
    exact Except.noConfusion h
  | some c =>
    rw [hf] at h
    have h2 : (Except.error (NewickError.invalidLabel c) : Except NewickError Node)
        = .error e := h
    injection h2 with h3
    exact ⟨c, h3.symm⟩

/-- C1 (amended): for every tree built through valid construction (no reserved
punctuation in any name or length) whose names and lengths additionally have
no leading or trailing whitespace, parsing the serialization and
re-serializing reproduces the text exactly. -/
theorem parse_serialize_roundtrip (T : Node) (h : wfTree T = true) :
    (parse_node T.newick).map Node.newick = Except.ok T.newick := by
  obtain ⟨N, hN, hNw⟩ := parseNodeF_roundtrip (nsize T) T le_rfl h
    (T.newick.length + 1) (by omega)
  unfold parse_node
  rw [hN]
  show Except.ok N.newick = Except.ok T.newick
  rw [hNw]

/-- C1 counterexample: the leaf named `"a "` is a valid construction in the
claim's sense (no reserved punctuation anywhere), yet one parse-serialize
cycle of its serialization `"a "` yields `"a"`, not `"a "`, because
`parse_node` strips the text. -/
theorem roundtrip_whitespace_counterexample :
    validTree (Node.mk (some ['a', ' ']) none []) = true ∧
    (Node.mk (some ['a', ' ']) none []).newick = ['a', ' '] ∧
    (parse_node (Node.mk (some ['a', ' ']) none []).newick).map Node.newick =
      Except.ok ['a'] := by
  refine ⟨by decide, rfl, by rfl⟩

theorem parse_serialize_roundtrip_witness :
    wfTree (Node.mk (some ['e']) none
      [Node.mk (some ['a']) none [],
       Node.mk (some ['d']) (some ['1', '.', '5'])
         [Node.mk (some ['b']) none [], Node.mk (some ['c']) none []]]) = true ∧
    (parse_node (Node.mk (some ['e']) none
      [Node.mk (some ['a']) none [],
       Node.mk (some ['d']) (some ['1', '.', '5'])
         [Node.mk (some ['b']) none [], Node.mk (some ['c']) none []]]).newick).map
        Node.newick =
      Except.ok (Node.mk (some ['e']) none
      [Node.mk (some ['a']) none [],
       Node.mk (some ['d']) (some ['1', '.', '5'])
         [Node.mk (some ['b']) none [], Node.mk (some ['c']) none []]]).newick :=
  ⟨by decide, parse_serialize_roundtrip _ (by decide)⟩

/-- C2 counterexample: `"((a)"` has unmatched parentheses (two `'('`, one
`')'`), yet `parse_node` returns a node (an anonymous childless one) instead
of failing with `SyntaxError`. -/
theorem unmatched_parens_counterexample :
    ("((a)".toList.count '(' = 2 ∧ "((a)".toList.count ')' = 1) ∧
    parse_node "((a)".toList = .ok (.mk none none []) := by
  exact ⟨⟨by decide, by decide⟩, by rfl⟩

theorem joinSep_concat (sep : Char) {xs : List (List Char)} (h : xs ≠ [])
    (y : List Char) : joinSep sep (xs ++ [y]) = joinSep sep xs ++ sep :: y := by
  induction xs with
  | nil => exact absurd rfl h
  | cons x xs ih =>
    cases xs with
    | nil => rfl
    | cons z zs =>
      rw [List.cons_append, joinSep_cons_of_ne sep x (by simp),
        ih (List.cons_ne_nil z zs), joinSep_cons_of_ne sep x (List.cons_ne_nil z zs)]
      simp [List.append_assoc]

theorem mem_of_pySplit_length {sep : Char} {t : List Char}
    (h : (pySplit sep t).length ≠ 1) : sep ∈ t := by
  by_contra hc
  rw [pySplit_of_not_mem hc] at h
  simp at h

theorem pyStrip_length_le (s : List Char) : (pyStrip s).length ≤ s.length := by
  unfold pyStrip
  have h1 := (List.dropWhile_sublist (l := s) pySpace).length_le
  have h2 := (List.dropWhile_sublist
    (l := (s.dropWhile pySpace).reverse) pySpace).length_le
  rw [List.length_reverse]
  rw [List.length_reverse] at h2
  omega

theorem sibGo_chunk_length : ∀ (l : List Char) (lvl : Int) (cur chunk : List Char),
    chunk ∈ sibGo l lvl cur → chunk.length < cur.length + l.length := by
  intro l
  induction l with
  | nil =>
    intro lvl cur chunk h
    rw [sibGo] at h
    cases h
  | cons c cs ih =>
    intro lvl cur chunk h
    rw [sibGo] at h
    by_cases hc : (c = ',' && lvl == 0) = true
    · rw [if_pos hc] at h
      rcases List.mem_cons.mp h with h1 | h1
      · subst h1
        simp only [List.length_cons]
        omega
      · have h2 := ih lvl [] chunk h1
        simp only [List.length_nil, List.length_cons] at h2 ⊢
        omega
    · rw [if_neg hc] at h
      have h2 := ih _ (cur ++ [c]) chunk h
      simp only [List.length_append, List.length_cons, List.length_nil] at h2 ⊢
      omega

theorem siblingChunks_chunk_length {s chunk : List Char}
    (h : chunk ∈ siblingChunks s) : chunk.length ≤ s.length := by
  have h2 := sibGo_chunk_length (s ++ [',']) 0 [] chunk h
  simp only [List.length_append, List.length_cons, List.length_nil] at h2
  omega

theorem chunk_length_lt {t chunk : List Char}
    (h2 : (pySplit ')' t).length ≠ 1)
    (hc : chunk ∈ siblingChunks ((joinSep ')' ((pySplit ')' t).dropLast)).drop 1)) :
    chunk.length < t.length := by
  have hne : pySplit ')' t ≠ [] := pySplit_ne_nil ')' t
  have hlen2 : 2 ≤ (pySplit ')' t).length := by
    have h0 : (pySplit ')' t).length ≠ 0 := by
      intro h0
      exact hne (List.length_eq_zero.mp h0)
    omega
  have hdlne : (pySplit ')' t).dropLast ≠ [] := by
    intro h0
    have h3 := List.length_dropLast (pySplit ')' t)
    rw [h0] at h3
    simp at h3
    omega
  have hj : joinSep ')' ((pySplit ')' t).dropLast ++
      [(pySplit ')' t).getLast hne]) = t := by
    rw [List.dropLast_append_getLast hne]
    exact joinSep_pySplit ')' t
  rw [joinSep_concat ')' hdlne] at hj
  have hlen := congrArg List.length hj
  simp only [List.length_append, List.length_cons] at hlen
  have hchunk := siblingChunks_chunk_length hc
  have hdrop := List.length_drop 1 (joinSep ')' ((pySplit ')' t).dropLast))
  rw [hdrop] at hchunk
  omega

theorem parseNodeF_error_source : ∀ (fuel : Nat) (s p : List Char),
    s.length < fuel → parseNodeF fuel s = .error (.unmatchedBraces p) →
    ∃ u : List Char, (')' : Char) ∈ pyStrip u ∧
      ¬(((pySplit ')' (pyStrip u)).headD []).head? = some '(') ∧
      p = ((pySplit ')' (pyStrip u)).headD []).take 100 := by
  intro fuel
  induction fuel with
  | zero =>
    intro s p hlen _
    omega
  | succ f ih =>
    intro s p hlen h
    rw [parseNodeF_succ] at h
    by_cases h1 : ((pySplit ')' (pyStrip s)).length == 1) = true
    · rw [if_pos h1] at h
      obtain ⟨c, hc⟩ := create_error_invalid h
      exact NewickError.noConfusion hc
    · rw [if_neg h1] at h
      have h1' : (pySplit ')' (pyStrip s)).length ≠ 1 := by
        intro h0
        exact h1 (by simp [h0])
      by_cases h2 : ((((pySplit ')' (pyStrip s)).headD []).head? == some '(') = true)
      · rw [if_pos h2] at h
        cases hm : exceptMapM (parseNodeF f)
            (siblingChunks ((joinSep ')' ((pySplit ')' (pyStrip s)).dropLast)).drop 1)) with
        | error e' =>
          rw [hm] at h
          have h3 : (Except.error e' : Except NewickError Node) =
              .error (.unmatchedBraces p) := h
          injection h3 with h4
          obtain ⟨x, hx, hfx⟩ := exceptMapM_error hm
          have hxlen : x.length < (pyStrip s).length := chunk_length_lt h1' hx
          have hslen := pyStrip_length_le s
          exact ih x p (by omega) (by rw [hfx, h4])
        | ok ds' =>
          rw [hm] at h
          have h3 : Node.create
              (parseNameAndLength ((pySplit ')' (pyStrip s)).getLastD [])).1
              (parseNameAndLength ((pySplit ')' (pyStrip s)).getLastD [])).2 ds' =
              .error (.unmatchedBraces p) := h
          obtain ⟨c, hc⟩ := create_error_invalid h3
          exact NewickError.noConfusion hc
      · rw [if_neg h2] at h
        injection h with h3
        injection h3 with h4
        refine ⟨s, mem_of_pySplit_length h1', ?_, h4.symm⟩
        intro h0
        exact h2 (by rw [h0]; simp)

/-- C2 (amended): `parse_node` raises the `'unmatched braces'` `SyntaxError`
when the stripped text of a parsed segment contains a `')'` whose preceding
part does not start with `'('` — the segment being the whole input (first
conjunct) or a sibling chunk handed to a recursive call, as for `"(a)b()"`
whose top-level pre-`')'` part `"(a"` does start with `'('` (third
conjunct); and every `'unmatched braces'` error the parser raises carries
exactly the first 100 characters of the pre-`')'` part of such a failing
segment (second conjunct).  Inputs with unmatched parentheses need not fail
this way: see the counterexample. -/
theorem parse_unmatched_error_condition :
    (∀ s : List Char, (')' : Char) ∈ pyStrip s →
      ¬(((pySplit ')' (pyStrip s)).headD []).head? = some '(') →
      parse_node s =
        .error (.unmatchedBraces (((pySplit ')' (pyStrip s)).headD []).take 100))) ∧
    (∀ s p : List Char, parse_node s = .error (.unmatchedBraces p) →
      ∃ u : List Char, (')' : Char) ∈ pyStrip u ∧
        ¬(((pySplit ')' (pyStrip u)).headD []).head? = some '(') ∧
        p = ((pySplit ')' (pyStrip u)).headD []).take 100) ∧
    (parse_node "(a)b()".toList = .error (.unmatchedBraces ['a']) ∧
      ((pySplit ')' (pyStrip "(a)b()".toList)).headD []).head? = some '(') := by
  refine ⟨?_, ?_, by rfl, by rfl⟩
  · intro s hmem hhead
    unfold parse_node
    rw [parseNodeF_succ]
    have hlen := two_le_pySplit hmem
    rw [if_neg (by simp only [beq_iff_eq]; omega)]
    rw [if_neg (by simp only [beq_iff_eq]; exact hhead)]
  · intro s p h
    exact parseNodeF_error_source (s.length + 1) s p (by omega) h

theorem parse_unmatched_error_condition_witness :
    ((')' : Char) ∈ pyStrip "x)".toList ∧
      parse_node "x)".toList = .error (.unmatchedBraces ['x'])) ∧
    (∃ u : List Char, (')' : Char) ∈ pyStrip u ∧
      ¬(((pySplit ')' (pyStrip u)).headD []).head? = some '(') ∧
      (['a'] : List Char) = ((pySplit ')' (pyStrip u)).headD []).take 100) := by
  refine ⟨⟨by decide, ?_⟩, ?_⟩
  · exact parse_unmatched_error_condition.1 "x)".toList (by decide) (by decide)
  · exact parse_unmatched_error_condition.2.1 "(a)b()".toList ['a'] (by rfl)

/-- C3 counterexample: a node with exactly one child whose serialization is
empty (an anonymous childless child) has at least one child but is *not*
wrapped in parentheses: its serialization is just the label `"x"`. -/
theorem wrap_condition_counterexample :
    (Node.mk (some ['x']) none [Node.mk none none []]).descendants.length = 1 ∧
    (Node.mk (some ['x']) none [Node.mk none none []]).newick = ['x'] :=
  ⟨rfl, rfl⟩

theorem newickSpec_mk (n l : Option (List Char)) (ds : List Node) :
    newickSpec (Node.mk n l ds) =
      (if (joinSep ',' (newickSpecList ds)).isEmpty then
        n.getD [] ++ (if truthy l then ':' :: l.getD [] else [])
      else '(' :: joinSep ',' (newickSpecList ds) ++ [')'] ++
        (n.getD [] ++ (if truthy l then ':' :: l.getD [] else []))) := rfl

/-- C3 (amended): `Node.newick` is exactly the spec's serialization algorithm
with the wrapping condition read as "the joined children text is non-empty":
children serialized recursively and joined with `','`, wrapped when the join
is non-empty, followed by the label (name, then `':'` plus length when a
length is present and non-empty), with no trailing terminator. -/
theorem newick_eq_spec (T : Node) : T.newick = newickSpec T := by
  suffices h : ∀ (k : Nat) (T : Node), nsize T ≤ k → T.newick = newickSpec T from
    h (nsize T) T le_rfl
  intro k
  induction k with
  | zero =>
    intro T h
    have := nsize_pos T
    omega
  | succ k ih =>
    intro T h
    cases T with
    | mk n l ds =>
      have hlist : newickList ds = newickSpecList ds := by
        have hmem : ∀ d ∈ ds, nsize d ≤ k := by
          intro d hd
          have := nsizeList_mem hd
          rw [nsize] at h
          omega
        clear h
        induction ds with
        | nil => rfl
        | cons d ds' ihds =>
          rw [newickList, newickSpecList,
            ih d (hmem d (List.mem_cons_self d ds')),
            ihds (fun e he => hmem e (List.mem_cons_of_mem d he))]
      rw [newick_mk, newickSpec_mk, hlist]
      by_cases hj : (joinSep ',' (newickSpecList ds)).isEmpty = true
      · rw [if_pos hj, if_pos hj, List.nil_append]
        rfl
      · rw [if_neg hj, if_neg hj]
        show ('(' :: (joinSep ',' (newickSpecList ds) ++ [')'])) ++ labelOf n l = _
        unfold labelOf
        simp [List.append_assoc]

/-- C4: node construction fails, and fails with `InvalidLabelError`, exactly
when the name or the length contains a reserved punctuation character; in
particular name `"a:b"` and length `"1,2"` are rejected (reporting `':'` and
`','` respectively) while name `"ab"` with length `"1.5"` is accepted. -/
theorem create_validation :
    (∀ (name length : Option (List Char)) (ds : List Node),
      (∃ e, Node.create name length ds = .error e) ↔
        ∃ c ∈ RESERVED_PUNCTUATION, c ∈ name.getD [] ∨ c ∈ length.getD []) ∧
    (∀ (name length : Option (List Char)) (ds : List Node) (e : NewickError),
      Node.create name length ds = .error e → ∃ c, e = .invalidLabel c) ∧
    Node.create (some "a:b".toList) none [] = .error (.invalidLabel ':') ∧
    Node.create none (some "1,2".toList) [] = .error (.invalidLabel ',') ∧
    Node.create (some "ab".toList) (some "1.5".toList) [] =
      .ok (.mk (some "ab".toList) (some "1.5".toList) []) := by
  refine ⟨?_, fun a b ds e h => create_error_invalid h, by rfl, by rfl, by rfl⟩
  intro name length ds
  constructor
  · rintro ⟨e, he⟩
    unfold Node.create at he
    cases hf : List.find? (fun c => (truthy name && (name.getD []).contains c) ||
        (truthy length && (length.getD []).contains c)) RESERVED_PUNCTUATION with
    | none =>
      rw [hf] at he
      exact Except.noConfusion he
    | some c =>
      have hmem := List.mem_of_find?_eq_some hf
      have hp := List.find?_some hf
      refine ⟨c, hmem, ?_⟩
      rcases (Bool.or_eq_true _ _).mp hp with h1 | h1
      · exact Or.inl (List.elem_iff.mp ((Bool.and_eq_true _ _).mp h1).2)
      · exact Or.inr (List.elem_iff.mp ((Bool.and_eq_true _ _).mp h1).2)
  · rintro ⟨c, hcR, hc⟩
    have hpred : ((truthy name && (name.getD []).contains c) ||
        (truthy length && (length.getD []).contains c)) = true := by
      rcases hc with h1 | h1
      · refine (Bool.or_eq_true _ _).mpr (Or.inl ((Bool.and_eq_true _ _).mpr
          ⟨?_, List.elem_iff.mpr h1⟩))
        cases name with
        | none => cases h1
        | some x =>
          cases x with
          | nil => cases h1
          | cons a as => rfl
      · refine (Bool.or_eq_true _ _).mpr (Or.inr ((Bool.and_eq_true _ _).mpr
          ⟨?_, List.elem_iff.mpr h1⟩))
        cases length with
        | none => cases h1
        | some x =>
          cases x with
          | nil => cases h1
          | cons a as => rfl
    have hsome : (List.find? (fun c => (truthy name && (name.getD []).contains c) ||
        (truthy length && (length.getD []).contains c))
          RESERVED_PUNCTUATION).isSome = true := by
      rw [List.find?_isSome]
      exact ⟨c, hcR, hpred⟩
    obtain ⟨c', hc'⟩ := Option.isSome_iff_exists.mp hsome
    refine ⟨.invalidLabel c', ?_⟩
    unfold Node.create
    rw [hc']

/-- C5: parsing `"(a,(b,c),d)"` yields a root with exactly the three children
leaf `a`, the subtree `(b,c)` (whose two children are the leaves `b` and
`c`), and leaf `d`, in this order: sibling splitting happens only at commas
at bracket depth 0. -/
theorem parse_depth0_structure :
    parse_node "(a,(b,c),d)".toList =
      .ok (.mk none none
        [.mk (some ['a']) none [],
         .mk none none [.mk (some ['b']) none [], .mk (some ['c']) none []],
         .mk (some ['d']) none []]) := by
  rfl

/-- C6: for the tree parsed from `"(a,(b,c)d)e"` (root `e` with children `a`
and `d`, where `d` has children `b` and `c` — `sampleD` is its decorated
runtime form), the default walk yields `e, a, d, b, c` and the post-order
walk yields `a, b, c, d, e`. -/
theorem walk_traversal_orders :
    parse_node "(a,(b,c)d)e".toList = .ok (derase sampleD) ∧
    (DNode.walk sampleD).map DNode.name =
      [some ['e'], some ['a'], some ['d'], some ['b'], some ['c']] ∧
    (dpostorder sampleD).map DNode.name =
      [some ['a'], some ['b'], some ['c'], some ['d'], some ['e']] := by
  refine ⟨by rfl, by rfl, by rfl⟩

theorem joinStr_cons₂ (sep x y : List Char) (ys : List (List Char)) :
    joinStr sep (x :: y :: ys) = x ++ sep ++ joinStr sep (y :: ys) := rfl

/-- C7: `dumps` joins the serialized trees with `";\n"` and ends the text
with exactly one `';'`: the empty sequence gives `";"`, the whole text always
ends in `';'`, prepending a tree prepends its serialization plus `";\n"`, and
the two trees parsed from `"(a,b);(c,d);"` dump to `"(a,b);\n(c,d);"`. -/
theorem dumps_contract :
    dumps [] = [';'] ∧
    (∀ ts : List Node, (dumps ts).getLast? = some ';') ∧
    (∀ (t : Node) (ts : List Node), ts ≠ [] →
      dumps (t :: ts) = t.newick ++ ';' :: '\n' :: dumps ts) ∧
    (∃ t1 t2 : Node, loads "(a,b);(c,d);".toList = .ok [t1, t2] ∧
      dumps [t1, t2] = "(a,b);\n(c,d);".toList) := by
  refine ⟨rfl, ?_, ?_, ?_⟩
  · intro ts
    unfold dumps
    exact List.getLast?_concat _
  · intro t ts hne
    unfold dumps
    cases ts with
    | nil => exact absurd rfl hne
    | cons t2 ts2 =>
      rw [newickList, newickList, joinStr_cons₂]
      simp [List.append_assoc]
  · exact ⟨.mk none none [.mk (some ['a']) none [], .mk (some ['b']) none []],
      .mk none none [.mk (some ['c']) none [], .mk (some ['d']) none []],
      by rfl, by rfl⟩

theorem dumps_contract_witness :
    dumps [Node.mk (some ['x']) none [], Node.mk (some ['y']) none []] =
      (Node.mk (some ['x']) none []).newick ++ ';' :: '\n' ::
        dumps [Node.mk (some ['y']) none []] :=
  dumps_contract.2.2.1 _ _ (List.cons_ne_nil _ _)

/-- C8: `loads` splits on `';'`, discards segments that are blank after
stripping and parses the rest in order with `parse_node`: the empty document
and `";;"` both give the empty sequence, and splitting off the first
`';'`-free segment either discards it (when blank) or parses it and conses
the result. -/
theorem loads_contract :
    loads [] = .ok [] ∧
    loads ";;".toList = .ok [] ∧
    (∀ s₁ s₂ : List Char, (';' : Char) ∉ s₁ →
      loads (s₁ ++ ';' :: s₂) =
        if (pyStrip s₁).isEmpty then loads s₂
        else do
          let n ← parse_node (pyStrip s₁)
          let ns ← loads s₂
          pure (n :: ns)) := by
  refine ⟨rfl, rfl, ?_⟩
  intro s₁ s₂ h
  unfold loads
  rw [pySplit_append_left _ h, List.filter_cons]
  by_cases he : (pyStrip s₁).isEmpty = true
  · rw [if_pos he]
    have hp : (!(pyStrip s₁).isEmpty) = false := by rw [he]; rfl
    rw [hp, if_neg Bool.false_ne_true]
  · have he' : (pyStrip s₁).isEmpty = false := eq_false_of_ne_true he
    rw [if_neg he, he']
    rw [if_pos (by rfl)]
    rw [exceptMapM]
    rfl

theorem loads_contract_witness :
    loads "x;y;".toList =
      .ok [Node.mk (some ['x']) none [], Node.mk (some ['y']) none []] := by
  have h := loads_contract.2.2 ['x'] "y;".toList (by decide)
  rw [show ("x;y;".toList : List Char) = ['x'] ++ ';' :: "y;".toList from rfl, h]
  rfl

/-- C9: `parse_node "a)b"` fails with the `'unmatched braces'` `SyntaxError`
carrying the offending part `"a"` (the text before the first `')'`), and
every `'unmatched braces'` error the parser can raise carries an excerpt of
at most 100 characters. -/
theorem parse_unmatched_excerpt :
    parse_node "a)b".toList = .error (.unmatchedBraces ['a']) ∧
    (∀ (fuel : Nat) (s p : List Char),
      parseNodeF fuel s = .error (.unmatchedBraces p) → p.length ≤ 100) := by
  refine ⟨by rfl, ?_⟩
  intro fuel
  induction fuel with
  | zero =>
    intro s p h
    unfold parseNodeF at h
    injection h with h1
    injection h1 with h2
    rw [← h2]
    simp
  | succ f ih =>
    intro s p h
    rw [parseNodeF_succ] at h
    by_cases h1 : ((pySplit ')' (pyStrip s)).length == 1) = true
    · rw [if_pos h1] at h
      obtain ⟨c, hc⟩ := create_error_invalid h
      exact NewickError.noConfusion hc
    · rw [if_neg h1] at h
      by_cases h2 : ((((pySplit ')' (pyStrip s)).headD []).head? == some '(') = true)
      · rw [if_pos h2] at h
        cases hm : exceptMapM (parseNodeF f)
            (siblingChunks ((joinSep ')' ((pySplit ')' (pyStrip s)).dropLast)).drop 1)) with
        | error e' =>
          rw [hm] at h
          have h3 : (Except.error e' : Except NewickError Node) =
              .error (.unmatchedBraces p) := h
          injection h3 with h4
          obtain ⟨x, hx, hfx⟩ := exceptMapM_error hm
          exact ih x p (by rw [hfx, h4])
        | ok ds' =>
          rw [hm] at h
          have h3 : Node.create
              (parseNameAndLength ((pySplit ')' (pyStrip s)).getLastD [])).1
              (parseNameAndLength ((pySplit ')' (pyStrip s)).getLastD [])).2 ds' =
              .error (.unmatchedBraces p) := h
          obtain ⟨c, hc⟩ := create_error_invalid h3
          exact NewickError.noConfusion hc
      · rw [if_neg h2] at h
        injection h with h3
        injection h3 with h4
        rw [← h4]
        simp [List.length_take]

theorem parse_unmatched_excerpt_witness :
    parse_node "a)b".toList = .error (.unmatchedBraces ['a']) ∧
    (['a'] : List Char).length ≤ 100 := by
  have h := parse_unmatched_excerpt
  exact ⟨h.1, h.2 ("a)b".toList.length + 1) "a)b".toList ['a'] h.1⟩

/-! The iterative post-order machine. -/

theorem dnid_mk (i : Nat) (n l : Option (List Char)) (ds : List DNode) :
    (DNode.mk i n l ds).nid = i := rfl

theorem ddesc_mk (i : Nat) (n l : Option (List Char)) (ds : List DNode) :
    (DNode.mk i n l ds).descendants = ds := rfl

theorem dwalk_mk (i : Nat) (n l : Option (List Char)) (ds : List DNode) :
    DNode.walk (.mk i n l ds) = .mk i n l ds :: walkList ds := rfl

theorem walkList_cons (d : DNode) (ds : List DNode) :
    walkList (d :: ds) = DNode.walk d ++ walkList ds := rfl

theorem postRec_mk (i : Nat) (n l : Option (List Char)) (ds : List DNode) :
    postRec (.mk i n l ds) = postRecList ds ++ [.mk i n l ds] := rfl

theorem postRecList_cons (d : DNode) (ds : List DNode) :
    postRecList (d :: ds) = postRec d ++ postRecList ds := rfl

theorem self_mem_walk (d : DNode) : d ∈ DNode.walk d := by
  cases d with
  | mk i n l ds =>
    rw [dwalk_mk]
    exact List.mem_cons_self _ _

theorem mem_walkList_of_mem {d : DNode} {ds : List DNode} (hd : d ∈ ds) {x : DNode}
    (hx : x ∈ DNode.walk d) : x ∈ walkList ds := by
  induction ds with
  | nil => cases hd
  | cons e es ih =>
    rw [walkList_cons]
    rcases List.mem_cons.mp hd with h | h
    · exact List.mem_append.mpr (Or.inl (h ▸ hx))
    · exact List.mem_append.mpr (Or.inr (ih h))

theorem dsize_pos (d : DNode) : 1 ≤ dsize d := by
  cases d with
  | mk i n l ds =>
    rw [dsize]
    omega

theorem dsizeList_mem {ds : List DNode} {d : DNode} (hd : d ∈ ds) :
    dsize d ≤ dsizeList ds := by
  induction ds with
  | nil => cases hd
  | cons x xs ih =>
    rw [dsizeList]
    rcases List.mem_cons.mp hd with h | h
    · subst h
      omega
    · have := ih h
      omega

theorem dcost_dsize : ∀ (k : Nat) (d : DNode), dsize d ≤ k →
    dcost d + 1 = 2 * dsize d := by
  intro k
  induction k with
  | zero =>
    intro d h
    have := dsize_pos d
    omega
  | succ k ih =>
    intro d h
    cases d with
    | mk i n l ds =>
      have hlist : dcostList ds = 2 * dsizeList ds := by
        have hmem : ∀ e ∈ ds, dsize e ≤ k := by
          intro e he
          have := dsizeList_mem he
          rw [dsize] at h
          omega
        clear h
        induction ds with
        | nil => rfl
        | cons e es ihes =>
          rw [dcostList, dsizeList]
          have h1 := ih e (hmem e (List.mem_cons_self e es))
          have h2 := ihes (fun x hx => hmem x (List.mem_cons_of_mem e hx))
          omega
      rw [dcost, dsize, hlist]
      omega

theorem lookupId_popFrontAt (m : List (Nat × List DNode)) (i j : Nat) :
    lookupId (popFrontAt i m) j =
      if j = i then (lookupId m j).map List.tail else lookupId m j := by
  induction m with
  | nil =>
    rw [popFrontAt]
    by_cases h : j = i <;> simp [lookupId, h]
  | cons kv m ih =>
    obtain ⟨k, v⟩ := kv
    rw [popFrontAt]
    by_cases hk : k = i
    · rw [if_pos hk]
      by_cases hj : j = i
      · rw [if_pos hj]
        have hkj : k = j := by rw [hk, hj]
        simp [lookupId, hkj]
      · rw [if_neg hj]
        have hkj : ¬k = j := by
          intro h0
          exact hj (by rw [← h0, hk])
        simp [lookupId, hkj]
    · rw [if_neg hk]
      by_cases hkj : k = j
      · have hji : ¬j = i := by
          intro h0
          exact hk (by rw [hkj, h0])
        simp [lookupId, hkj, hji]
      · simp only [lookupId, if_neg hkj]
        exact ih

theorem lookupId_map_walk {l : List DNode} (hnd : (l.map DNode.nid).Nodup)
    {x : DNode} (hx : x ∈ l) :
    lookupId (l.map (fun n => (n.nid, n.descendants))) x.nid =
      some x.descendants := by
  induction l with
  | nil => cases hx
  | cons y t ih =>
    rw [List.map_cons] at hnd
    rcases List.nodup_cons.mp hnd with ⟨hyn, hnd'⟩
    rw [List.map_cons, lookupId]
    by_cases h : y.nid = x.nid
    · rw [if_pos h]
      rcases List.mem_cons.mp hx with h1 | h1
      · rw [h1]
      · exact absurd (h ▸ List.mem_map_of_mem DNode.nid h1) hyn
    · rw [if_neg h]
      rcases List.mem_cons.mp hx with h1 | h1
      · exact absurd (congrArg DNode.nid h1.symm) h
      · exact ih hnd' h1

theorem postGo_succ_cons (fuel : Nat) (node : DNode) (rest : List DNode)
    (m : List (Nat × List DNode)) :
    postGo (fuel + 1) (node :: rest) m =
      (match lookupId m node.nid with
       | none => []
       | some [] =>
         node :: postGo fuel rest (match rest with
           | [] => m
           | parent :: _ => popFrontAt parent.nid m)
       | some (d :: _) => postGo fuel (d :: node :: rest) m) := rfl

theorem postGo_succ_nil (fuel : Nat) (m : List (Nat × List DNode)) :
    postGo (fuel + 1) [] m = [] := rfl

theorem postGo_children : ∀ (ds₀ : List DNode), (∀ d ∈ ds₀, MLprop d) →
    ∀ (self : DNode) (rest : List DNode) (m : List (Nat × List DNode)) (fuel : Nat),
      lookupId m self.nid = some ds₀ →
      (∀ d ∈ ds₀, ∀ x ∈ DNode.walk d, lookupId m x.nid = some x.descendants) →
      ((walkList ds₀).map DNode.nid).Nodup →
      self.nid ∉ (walkList ds₀).map DNode.nid →
      (∀ r ∈ rest, r.nid ∉ (walkList ds₀).map DNode.nid) →
      ∃ m', postGo (dcostList ds₀ + 1 + fuel) (self :: rest) m =
          postRecList ds₀ ++ self :: postGo fuel rest m' ∧
        ∀ j, j ∉ (walkList ds₀).map DNode.nid → j ≠ self.nid →
          lookupId m' j =
            (match rest with
             | [] => lookupId m j
             | parent :: _ =>
               if j = parent.nid then (lookupId m j).map List.tail
               else lookupId m j) := by
  intro ds₀
  induction ds₀ with
  | nil =>
    intro _ self rest m fuel h1 _ _ _ _
    have harith : dcostList [] + 1 + fuel = fuel + 1 := by
      rw [dcostList]
      omega
    cases rest with
    | nil =>
      refine ⟨m, ?_, ?_⟩
      · rw [harith, postGo_succ_cons, h1]
        rfl
      · intro j _ _
        rfl
    | cons parent rest' =>
      refine ⟨popFrontAt parent.nid m, ?_, ?_⟩
      · rw [harith, postGo_succ_cons, h1]
        rfl
      · intro j _ _
        exact lookupId_popFrontAt m parent.nid j
  | cons d ds' ihds =>
    intro hml self rest m fuel h1 h2 h3 h4 h5
    have hdmem : d ∈ d :: ds' := List.mem_cons_self d ds'
    have hids : (walkList (d :: ds')).map DNode.nid =
        (DNode.walk d).map DNode.nid ++ (walkList ds').map DNode.nid := by
      rw [walkList_cons, List.map_append]
    have hndd : ((DNode.walk d).map DNode.nid).Nodup := by
      rw [hids] at h3
      exact h3.of_append_left
    have hnds' : ((walkList ds').map DNode.nid).Nodup := by
      rw [hids] at h3
      exact h3.of_append_right
    have hdisj : ∀ j, j ∈ (walkList ds').map DNode.nid →
        j ∉ (DNode.walk d).map DNode.nid := by
      intro j hj hjd
      rw [hids] at h3
      exact (List.disjoint_of_nodup_append h3) hjd hj
    have hselfd : self.nid ∉ (DNode.walk d).map DNode.nid := by
      intro hmem
      exact h4 (by rw [hids]; exact List.mem_append.mpr (Or.inl hmem))
    have hselfds' : self.nid ∉ (walkList ds').map DNode.nid := by
      intro hmem
      exact h4 (by rw [hids]; exact List.mem_append.mpr (Or.inr hmem))
    obtain ⟨m₁, hrun₁, hchar₁⟩ := hml d hdmem (self :: rest) m
      (dcostList ds' + 1 + fuel) (h2 d hdmem) hndd
      (by
        intro r hr
        rcases List.mem_cons.mp hr with h | h
        · subst h
          exact hselfd
        · intro hmem
          exact (h5 r h) (by rw [hids]; exact List.mem_append.mpr (Or.inl hmem)))
    have hchar₁' : ∀ j, j ∉ (DNode.walk d).map DNode.nid →
        lookupId m₁ j =
          if j = self.nid then (lookupId m j).map List.tail else lookupId m j :=
      hchar₁
    have h1' : lookupId m₁ self.nid = some ds' := by
      have h0 := hchar₁' self.nid hselfd
      rw [if_pos rfl, h1] at h0
      rw [h0]
      rfl
    have h2' : ∀ e ∈ ds', ∀ x ∈ DNode.walk e,
        lookupId m₁ x.nid = some x.descendants := by
      intro e he x hx
      have hxids : x.nid ∈ (walkList ds').map DNode.nid :=
        List.mem_map_of_mem DNode.nid (mem_walkList_of_mem he hx)
      have hx1 : x.nid ∉ (DNode.walk d).map DNode.nid := hdisj x.nid hxids
      have hx2 : ¬x.nid = self.nid := by
        intro h0
        exact hselfds' (h0 ▸ hxids)
      have h6 := hchar₁' x.nid hx1
      rw [if_neg hx2] at h6
      rw [h6]
      exact h2 e (List.mem_cons_of_mem d he) x hx
    have h5' : ∀ r ∈ rest, r.nid ∉ (walkList ds').map DNode.nid := by
      intro r hr hmem
      exact (h5 r hr) (by rw [hids]; exact List.mem_append.mpr (Or.inr hmem))
    obtain ⟨m₂, hrun₂, hchar₂⟩ := ihds (fun e he => hml e (List.mem_cons_of_mem d he))
      self rest m₁ fuel h1' h2' hnds' hselfds' h5'
    refine ⟨m₂, ?_, ?_⟩
    · have harith : dcostList (d :: ds') + 1 + fuel =
          (dcost d + (dcostList ds' + 1 + fuel)) + 1 := by
        rw [dcostList]
        omega
      rw [harith, postGo_succ_cons, h1]
      show postGo (dcost d + (dcostList ds' + 1 + fuel)) (d :: self :: rest) m =
        postRecList (d :: ds') ++ self :: postGo fuel rest m₂
      rw [hrun₁, hrun₂, postRecList_cons, List.append_assoc]
    · intro j hj hjself
      have hj1 : j ∉ (DNode.walk d).map DNode.nid := by
        intro hmem
        exact hj (by rw [hids]; exact List.mem_append.mpr (Or.inl hmem))
      have hj2 : j ∉ (walkList ds').map DNode.nid := by
        intro hmem
        exact hj (by rw [hids]; exact List.mem_append.mpr (Or.inr hmem))
      have hm₁j : lookupId m₁ j = lookupId m j := by
        have h6 := hchar₁' j hj1
        rw [if_neg hjself] at h6
        exact h6
      have h7 := hchar₂ j hj2 hjself
      cases rest with
      | nil =>
        show lookupId m₂ j = lookupId m j
        have h8 : lookupId m₂ j = lookupId m₁ j := h7
        rw [h8, hm₁j]
      | cons parent rest' =>
        show lookupId m₂ j =
          if j = parent.nid then (lookupId m j).map List.tail else lookupId m j
        have h8 : lookupId m₂ j =
            if j = parent.nid then (lookupId m₁ j).map List.tail
            else lookupId m₁ j := h7
        rw [h8, hm₁j]

theorem MLprop_all : ∀ (k : Nat) (n : DNode), dsize n ≤ k → MLprop n := by
  intro k
  induction k with
  | zero =>
    intro n h
    have := dsize_pos n
    omega
  | succ k ih =>
    intro n hsize
    cases n with
    | mk i nm ln ds =>
      intro rest m fuel hfresh hnd hrest
      have hml : ∀ d ∈ ds, MLprop d := by
        intro d hd
        refine ih d ?_
        have := dsizeList_mem hd
        rw [dsize] at hsize
        omega
      have hidseq : subtreeIds (.mk i nm ln ds) =
          i :: (walkList ds).map DNode.nid := by
        rw [subtreeIds, dwalk_mk, List.map_cons, dnid_mk]
      rw [hidseq] at hnd hrest ⊢
      rcases List.nodup_cons.mp hnd with ⟨hinotin, hnd'⟩
      have h1 : lookupId m i = some ds := by
        have h0 := hfresh (.mk i nm ln ds) (self_mem_walk _)
        rw [dnid_mk, ddesc_mk] at h0
        exact h0
      have h2 : ∀ d ∈ ds, ∀ x ∈ DNode.walk d,
          lookupId m x.nid = some x.descendants := by
        intro d hd x hx
        refine hfresh x ?_
        rw [dwalk_mk]
        exact List.mem_cons_of_mem _ (mem_walkList_of_mem hd hx)
      have h5 : ∀ r ∈ rest, r.nid ∉ (walkList ds).map DNode.nid := by
        intro r hr hmem
        exact (hrest r hr) (List.mem_cons_of_mem i hmem)
      obtain ⟨m', hrun, hchar⟩ := postGo_children ds hml (.mk i nm ln ds) rest m fuel
        (by rw [dnid_mk]; exact h1) h2 hnd' (by rw [dnid_mk]; exact hinotin) h5
      refine ⟨m', ?_, ?_⟩
      · have harith : dcost (.mk i nm ln ds) + fuel = dcostList ds + 1 + fuel := by
          rw [dcost]
        rw [harith, hrun, postRec_mk, List.append_assoc]
        rfl
      · intro j hj
        have hj1 : j ∉ (walkList ds).map DNode.nid :=
          fun hmem => hj (List.mem_cons_of_mem i hmem)
        have hj2 : j ≠ (DNode.mk i nm ln ds).nid := by
          rw [dnid_mk]
          intro h0
          exact hj (h0 ▸ List.mem_cons_self i _)
        exact hchar j hj1 hj2

theorem dpostorder_eq_postRec (d : DNode)
    (h : ((DNode.walk d).map DNode.nid).Nodup) : dpostorder d = postRec d := by
  have hml := MLprop_all (dsize d) d le_rfl
  obtain ⟨m', hrun, _⟩ := hml []
    ((DNode.walk d).map (fun n => (n.nid, n.descendants))) 1
    (fun x hx => lookupId_map_walk h hx) h (by intro r hr; cases hr)
  unfold dpostorder
  have harith : 2 * dsize d = dcost d + 1 := (dcost_dsize (dsize d) d le_rfl).symm
  rw [harith, hrun]
  have hempty : postGo 1 [] m' = [] := rfl
  rw [hempty, List.append_nil]

theorem postRec_perm_walk : ∀ (k : Nat) (d : DNode), dsize d ≤ k →
    (postRec d).Perm (DNode.walk d) := by
  intro k
  induction k with
  | zero =>
    intro d h
    have := dsize_pos d
    omega
  | succ k ih =>
    intro d h
    cases d with
    | mk i n l ds =>
      have hlist : (postRecList ds).Perm (walkList ds) := by
        have hmem : ∀ e ∈ ds, dsize e ≤ k := by
          intro e he
          have := dsizeList_mem he
          rw [dsize] at h
          omega
        clear h
        induction ds with
        | nil => exact List.Perm.refl []
        | cons e es ihes =>
          rw [postRecList_cons, walkList_cons]
          exact List.Perm.append (ih e (hmem e (List.mem_cons_self e es)))
            (ihes (fun x hx => hmem x (List.mem_cons_of_mem e hx)))
      rw [postRec_mk, dwalk_mk]
      exact (List.perm_append_singleton _ _).trans (List.Perm.cons _ hlist)

/-- C10: for every (decorated runtime) tree in which no node object appears
twice — all identity tags distinct — the post-order walk yields exactly the
same collection of nodes as the default pre-order walk, each node exactly
once (a permutation), with the root yielded first in pre-order and last in
post-order.  Both traversals are pure functions of the tree, so neither
modifies any node's name, length or children. -/
theorem postorder_matches_walk (d : DNode)
    (h : ((DNode.walk d).map DNode.nid).Nodup) :
    (dpostorder d).Perm (DNode.walk d) ∧
    (DNode.walk d).head? = some d ∧
    (dpostorder d).getLast? = some d := by
  have heq := dpostorder_eq_postRec d h
  refine ⟨?_, ?_, ?_⟩
  · rw [heq]
    exact postRec_perm_walk (dsize d) d le_rfl
  · cases d with
    | mk i n l ds =>
      rw [dwalk_mk]
      rfl
  · rw [heq]
    cases d with
    | mk i n l ds =>
      rw [postRec_mk]
      exact List.getLast?_concat _

theorem postorder_matches_walk_witness :
    ((DNode.walk sampleD).map DNode.nid).Nodup ∧
    ((dpostorder sampleD).Perm (DNode.walk sampleD) ∧
     (DNode.walk sampleD).head? = some sampleD ∧
     (dpostorder sampleD).getLast? = some sampleD) :=
  ⟨by decide, postorder_matches_walk sampleD (by decide)⟩
